import Mathlib

/-!
# Verification of the ubuntu-merges data-normalization core

This file gives a shallow embedding, in Lean 4, of the data-normalization and
changelog-extraction engine of the ubuntu-merges repository
(`src/services/api.ts`), and proves / refutes the frozen claims about it.

Embedding conventions:
* JavaScript strings are modelled as Lean `String` / `List Char`; the ASCII
  fragment of `toLowerCase`, `trim` and the regex classes `\s` / `\S` is
  modelled exactly (the inputs of interest are ASCII).
* JavaScript numbers are modelled exactly, by decimal fractions
  `Dec` (an integer mantissa together with a power-of-ten exponent, see
  `Dec.toQ`); `NaN` is modelled by `Option` (`none` = NaN).  This is the
  standard exact idealization of IEEE doubles: on the decimal literals
  handled by the code the two agree.
* Fields whose runtime type is looser than the TypeScript annotation (for
  example `teams`, which the code copies without coercing its elements) are
  modelled with the runtime type.
-/

/-! ## JavaScript character / string primitives -/

/-- The JS whitespace class (regex `\s`, `String.prototype.trim`),
restricted to the code points that can actually occur in the data handled
here (ASCII whitespace plus NBSP). -/
def jsWs (c : Char) : Bool :=
  c = ' ' || c = '\t' || c = '\n' || c = '\r' ||
  c.toNat = 11 || c.toNat = 12 || c.toNat = 0xa0

/-- ASCII fragment of `String.prototype.toLowerCase`. -/
def jsToLower (cs : List Char) : List Char := cs.map Char.toLower

/-- `String.prototype.trim`: drop leading and trailing whitespace. -/
def jsTrim (cs : List Char) : List Char :=
  ((cs.dropWhile jsWs).reverse.dropWhile jsWs).reverse

/-- `String.prototype.includes`: `pat` occurs as a contiguous substring. -/
def listContains (hay pat : List Char) : Bool :=
  match hay with
  | [] => pat.isEmpty
  | _ :: t => pat.isPrefixOf hay || listContains t pat

/-- `String.prototype.split(sep)` for a one-character separator
(every occurrence splits; empty pieces are kept, as in JS). -/
def splitCh (sep : Char) : List Char → List (List Char)
  | [] => [[]]
  | c :: t =>
    match splitCh sep t with
    | [] => [[c]]   -- unreachable: splitCh never returns []
    | h :: r => if c = sep then [] :: h :: r else (c :: h) :: r

/-! ## JavaScript number primitives

A JS number produced by `parseFloat` on a decimal literal is represented
exactly as a decimal fraction `m * 10 ^ e`.  All executable arithmetic stays
on integers; `Dec.toQ` interprets the representation in `ℚ` for the
specification-level statements. -/

/-- Exact decimal fraction `m * 10 ^ e`. -/
structure Dec where
  m : ℤ
  e : ℤ
  deriving DecidableEq, Repr

/-- The rational value of a decimal fraction. -/
def Dec.toQ (d : Dec) : ℚ := (d.m : ℚ) * 10 ^ d.e

/-- ASCII digit (code points 48–57), the digits of a decimal literal. -/
def isDigitCh (c : Char) : Bool := 48 ≤ c.toNat && c.toNat ≤ 57

/-- Numeric value of a big-endian digit string (used by `parseFloat`). -/
def digitsVal (ds : List Char) : ℕ :=
  ds.foldl (fun a c => 10 * a + (c.toNat - 48)) 0

/-- The optional exponent part of a decimal literal (`e5`, `E-3`, …);
`none` when the input does not start with a well-formed exponent (in which
case `parseFloat` simply stops before it). -/
def parseExpPart (cs : List Char) : Option ℤ :=
  match cs with
  | c :: rest =>
    if c = 'e' ∨ c = 'E' then
      match rest with
      | '+' :: r2 =>
        if (r2.takeWhile isDigitCh).isEmpty then none
        else some (digitsVal (r2.takeWhile isDigitCh) : ℤ)
      | '-' :: r2 =>
        if (r2.takeWhile isDigitCh).isEmpty then none
        else some (-(digitsVal (r2.takeWhile isDigitCh) : ℤ))
      | r2 =>
        if (r2.takeWhile isDigitCh).isEmpty then none
        else some (digitsVal (r2.takeWhile isDigitCh) : ℤ)
    else none
  | [] => none

/-- Exponent contributed by an exponent suffix (0 when absent/malformed). -/
def expVal (cs : List Char) : ℤ :=
  match parseExpPart cs with
  | some e => e
  | none => 0

/-- Leading sign of a numeric literal; anything that is not `-`/`+` leaves
the input untouched with sign `+1`. -/
def splitSign (cs : List Char) : ℤ × List Char :=
  match cs with
  | c :: t => if c = '-' then (-1, t) else if c = '+' then (1, t) else (1, cs)
  | [] => (1, [])

/-- `parseFloat`: skip leading whitespace, read an optional sign and the
longest decimal-literal prefix, ignore everything after it; `none` (= NaN)
when no digits could be read.  The digits `I`, fraction digits `F` and
exponent `E` of the literal yield the exact value
`sign * (I.F) * 10 ^ E`, stored as the decimal fraction
`⟨sign * (I * 10^|F| + F), E - |F|⟩`.  (`Infinity` is not modelled: the
call sites lower-case their input first, and `parseFloat` only accepts the
exact spelling `Infinity`.) -/
def parseFloatBody (cs : List Char) : Option Dec :=
  match cs.dropWhile isDigitCh with
  | '.' :: r2 =>
    if (cs.takeWhile isDigitCh).isEmpty ∧ (r2.takeWhile isDigitCh).isEmpty then none
    else some ⟨(digitsVal (cs.takeWhile isDigitCh) : ℤ) * 10 ^ (r2.takeWhile isDigitCh).length
                 + (digitsVal (r2.takeWhile isDigitCh) : ℤ),
               expVal (r2.dropWhile isDigitCh) - (r2.takeWhile isDigitCh).length⟩
  | _ =>
    if (cs.takeWhile isDigitCh).isEmpty then none
    else some ⟨(digitsVal (cs.takeWhile isDigitCh) : ℤ), expVal (cs.dropWhile isDigitCh)⟩

def parseFloatChars (cs0 : List Char) : Option Dec :=
  (parseFloatBody (splitSign (cs0.dropWhile jsWs)).2).map
    (fun d => ⟨(splitSign (cs0.dropWhile jsWs)).1 * d.m, d.e⟩)

/-- `Math.round` on an exact decimal fraction: round half-up towards `+∞`
(`⌊q + 1/2⌋`, see `jroundDec_eq_floor`), computed on integers. -/
def jroundDec (d : Dec) : ℤ :=
  if 0 ≤ d.e then d.m * 10 ^ d.e.toNat
  else (2 * d.m + 10 ^ (-d.e).toNat) / (2 * 10 ^ (-d.e).toNat)

/-! ## The Duration Parser (`parseAgeToDays`, `src/services/api.ts:62-77`) -/

/-- Body of `parseAgeToDays` after the `String(...).toLowerCase().trim()`
preparation; the result `none` is JavaScript `NaN` (which the source can
return when a unit letter is present but no number parses). -/
def parseAgeChars (str : List Char) : Option ℤ :=
  if listContains str ['y'] then
    (parseFloatChars str).map (fun d => jroundDec ⟨d.m * 365, d.e⟩)
  else if listContains str ['m', 'o'] then
    (parseFloatChars str).map (fun d => jroundDec ⟨d.m * 30, d.e⟩)
  else if listContains str ['w'] then
    (parseFloatChars str).map (fun d => jroundDec ⟨d.m * 7, d.e⟩)
  else if listContains str ['d'] then
    (parseFloatChars str).map (fun d => jroundDec d)
  else if listContains str [':'] then some 0
  else
    match parseFloatChars str with
    | none => some 0
    | some d => some (jroundDec d)

/-- `parseAgeToDays` (`src/services/api.ts:62`).  `none` models a
`null`/`undefined` argument; a numeric argument enters through its
`String(...)` rendering.  The result `none` models `NaN`. -/
def parseAgeToDays (ageInput : Option String) : Option ℤ :=
  match ageInput with
  | none => some 0
  | some s => parseAgeChars (jsTrim (jsToLower s.data))

example : parseAgeToDays (some "5d") = some 5 := by decide
example : parseAgeToDays (some "1.5w") = some 11 := by decide
example : parseAgeToDays (some "0.5y") = some 183 := by decide
example : parseAgeToDays (some "12:30") = some 0 := by decide
example : parseAgeToDays (some "invalid") = none := by decide
example : parseAgeToDays (some "") = some 0 := by decide
example : parseAgeToDays (some " 5D ") = some 5 := by decide
example : parseAgeToDays (some "-5") = some (-5) := by decide
example : parseAgeToDays (some "yes") = none := by decide
example : parseAgeToDays (some "5 days") = some 1825 := by decide
example : parseAgeToDays (some "6mo") = some 180 := by decide
example : parseAgeToDays (some "2.5d") = some 3 := by decide
example : parseAgeToDays (some "365d") = some 365 := by decide
example : parseAgeToDays (some "10") = some 10 := by decide
example : parseAgeToDays none = some 0 := by decide

/-! ## Specification bridge: `jroundDec` is `⌊· + 1/2⌋`, and sign facts -/

/-- `⌊(n : ℚ) + 1/2⌋ = n`. -/
theorem floor_int_add_half (n : ℤ) : ⌊(n : ℚ) + 1 / 2⌋ = n := by
  have h0 : ⌊(1 / 2 : ℚ)⌋ = 0 := by norm_num
  rw [add_comm, Int.floor_add_int, h0, zero_add]

/-- The integer-level rounding agrees with `Math.round`'s mathematical
specification `⌊q + 1/2⌋` on the value of the decimal fraction. -/
theorem jroundDec_eq_floor (d : Dec) : jroundDec d = ⌊d.toQ + 1 / 2⌋ := by
  unfold jroundDec Dec.toQ
  split
  · next h =>
    have he : d.e = (d.e.toNat : ℤ) := (Int.toNat_of_nonneg h).symm
    conv_rhs => rw [he, zpow_natCast]
    have hcast : (d.m : ℚ) * 10 ^ d.e.toNat = ((d.m * 10 ^ d.e.toNat : ℤ) : ℚ) := by
      push_cast; ring
    rw [hcast, floor_int_add_half]
  · next h =>
    have hpos : 0 ≤ -d.e := by omega
    have hek : d.e = -((-d.e).toNat : ℤ) := by
      have := Int.toNat_of_nonneg hpos; omega
    conv_rhs => rw [hek, zpow_neg, zpow_natCast]
    have h10 : ((10 : ℚ) ^ (-d.e).toNat) ≠ 0 := by positivity
    have hval : (d.m : ℚ) * ((10 : ℚ) ^ (-d.e).toNat)⁻¹ + 1 / 2 =
        ((2 * d.m + 10 ^ (-d.e).toNat : ℤ) : ℚ) / ((2 * 10 ^ (-d.e).toNat : ℕ) : ℚ) := by
      push_cast
      field_simp
      ring
    rw [hval, Rat.floor_intCast_div_natCast]
    push_cast
    rfl

/-- A decimal fraction with non-negative mantissa rounds to a non-negative
integer. -/
theorem jroundDec_nonneg (d : Dec) (h : 0 ≤ d.m) : 0 ≤ jroundDec d := by
  rw [jroundDec_eq_floor]
  have hq : (0 : ℚ) ≤ d.toQ := by
    unfold Dec.toQ
    have : (0 : ℚ) ≤ (d.m : ℚ) := by exact_mod_cast h
    positivity
  have : ((0 : ℤ) : ℚ) ≤ d.toQ + 1 / 2 := by push_cast; linarith
  exact Int.le_floor.mpr this

/-- Without a `-` in the input the sign read by `parseFloat` is `+1`. -/
theorem splitSign_fst_eq_one (cs : List Char) (h : '-' ∉ cs) : (splitSign cs).1 = 1 := by
  cases cs with
  | nil => rfl
  | cons c t =>
    have hc : c ≠ '-' := fun hcc => h (hcc ▸ List.mem_cons_self c t)
    simp only [splitSign, if_neg hc]
    split <;> rfl

/-- The unsigned part of `parseFloat` always has a non-negative mantissa. -/
theorem parseFloatBody_m_nonneg (cs : List Char) (d : Dec)
    (hd : parseFloatBody cs = some d) : 0 ≤ d.m := by
  unfold parseFloatBody at hd
  split at hd
  · split at hd
    · exact absurd hd (by simp)
    · have := Option.some.inj hd
      subst this
      simp only
      positivity
  · split at hd
    · exact absurd hd (by simp)
    · have := Option.some.inj hd
      subst this
      simp only
      positivity

/-- Without a `-` in the input, any number `parseFloat` reads has a
non-negative mantissa. -/
theorem parseFloatChars_m_nonneg (cs : List Char) (h : '-' ∉ cs) (d : Dec)
    (hd : parseFloatChars cs = some d) : 0 ≤ d.m := by
  have h1 : '-' ∉ cs.dropWhile jsWs :=
    fun hm => h ((cs.dropWhile_sublist jsWs).mem hm)
  have hsg : (splitSign (cs.dropWhile jsWs)).1 = 1 := splitSign_fst_eq_one _ h1
  unfold parseFloatChars at hd
  simp only [hsg] at hd
  rcases Option.map_eq_some'.mp hd with ⟨d', hd', heq⟩
  subst heq
  have := parseFloatBody_m_nonneg _ _ hd'
  simp only
  linarith

/-! ## Helper lemmas about the string primitives -/

theorem listContains_infix_iff (hay pat : List Char) :
    listContains hay pat = true ↔ pat <:+: hay := by
  induction hay with
  | nil =>
    simp only [listContains, List.isEmpty_iff]
    exact ⟨fun h => h ▸ List.infix_refl [], fun h => List.eq_nil_of_infix_nil h⟩
  | cons c t ih =>
    simp only [listContains, Bool.or_eq_true, List.isPrefixOf_iff_prefix, ih]
    rw [List.infix_cons_iff]

theorem listContains_singleton (hay : List Char) (c : Char) :
    listContains hay [c] = true ↔ c ∈ hay := by
  rw [listContains_infix_iff]
  constructor
  · rintro ⟨s, t, rfl⟩
    simp
  · intro hm
    rcases List.append_of_mem hm with ⟨s, t, rfl⟩
    exact ⟨s, t, by simp⟩

theorem listContains_false_of_head_not_mem (hay : List Char) (c : Char) (p : List Char)
    (h : c ∉ hay) : listContains hay (c :: p) = false := by
  rw [Bool.eq_false_iff]
  intro htrue
  exact h (((listContains_infix_iff hay (c :: p)).mp htrue).subset (List.mem_cons_self c p))

theorem dropWhile_all_false {p : Char → Bool} (L : List Char)
    (h : ∀ c ∈ L, p c = false) : L.dropWhile p = L := by
  cases L with
  | nil => rfl
  | cons c t => simp [List.dropWhile_cons, h c (List.mem_cons_self c t)]

theorem jsTrim_eq_self (L : List Char) (h : ∀ c ∈ L, jsWs c = false) : jsTrim L = L := by
  unfold jsTrim
  rw [dropWhile_all_false L h, dropWhile_all_false L.reverse
    (fun c hc => h c (List.mem_reverse.mp hc)), List.reverse_reverse]

theorem jsToLower_eq_self (L : List Char) (h : ∀ c ∈ L, c.toLower = c) : jsToLower L = L := by
  unfold jsToLower
  induction L with
  | nil => rfl
  | cons c t ih =>
    rw [List.map_cons, h c (List.mem_cons_self c t),
      ih (fun x hx => h x (List.mem_cons_of_mem c hx))]

theorem toLower_eq_self_of_toNat {c : Char} (h : c.toNat < 65 ∨ 90 < c.toNat) :
    c.toLower = c := by
  unfold Char.toLower
  rw [if_neg (by omega)]

theorem takeWhile_append_all {p : Char → Bool} (l r : List Char)
    (h : ∀ c ∈ l, p c = true) : (l ++ r).takeWhile p = l ++ r.takeWhile p := by
  induction l with
  | nil => simp
  | cons c t ih =>
    simp [List.takeWhile_cons, h c (List.mem_cons_self c t),
      ih (fun x hx => h x (List.mem_cons_of_mem c hx))]

theorem dropWhile_append_all {p : Char → Bool} (l r : List Char)
    (h : ∀ c ∈ l, p c = true) : (l ++ r).dropWhile p = r.dropWhile p := by
  induction l with
  | nil => simp
  | cons c t ih =>
    simp [List.dropWhile_cons, h c (List.mem_cons_self c t),
      ih (fun x hx => h x (List.mem_cons_of_mem c hx))]

/-! ## Character-class facts used to evaluate the parsers symbolically -/

theorem isDigitCh_toNat {c : Char} (h : isDigitCh c = true) :
    48 ≤ c.toNat ∧ c.toNat ≤ 57 := by
  simpa [isDigitCh] using h

theorem isDigitCh_false_of_toNat {c : Char} (h : c.toNat < 48 ∨ 57 < c.toNat) :
    isDigitCh c = false := by
  simp only [isDigitCh, Bool.and_eq_false_iff, decide_eq_false_iff_not]
  omega

theorem jsWs_false_of_toNat {c : Char} (h : 32 < c.toNat) (h' : c.toNat ≠ 160) :
    jsWs c = false := by
  apply Bool.eq_false_iff.mpr
  intro htrue
  simp only [jsWs, Bool.or_eq_true, decide_eq_true_eq] at htrue
  rcases htrue with ((((((hc | hc) | hc) | hc) | hc) | hc) | hc)
  · subst hc; exact absurd h (by decide)
  · subst hc; exact absurd h (by decide)
  · subst hc; exact absurd h (by decide)
  · subst hc; exact absurd h (by decide)
  · omega
  · omega
  · omega

theorem ne_of_toNat_ne {c d : Char} (h : c.toNat ≠ d.toNat) : c ≠ d :=
  fun hcd => h (hcd ▸ rfl)

/-! ## Symbolic evaluation of `parseFloat` on decimal literals -/

/-- A tail that stops the scanner: empty, or starting with a character that
is not a digit, not `.` and not an exponent marker. -/
def stopsScan (rest : List Char) : Prop :=
  ∀ c l, rest = c :: l → isDigitCh c = false ∧ c ≠ '.' ∧ c ≠ 'e' ∧ c ≠ 'E'

theorem expVal_of_stopsScan (rest : List Char) (h : stopsScan rest) : expVal rest = 0 := by
  cases rest with
  | nil => rfl
  | cons c l =>
    obtain ⟨_, _, he, hE⟩ := h c l rfl
    simp only [expVal, parseExpPart]
    rw [if_neg (by tauto)]

theorem takeWhile_digits_stop (rest : List Char) (h : stopsScan rest) :
    rest.takeWhile isDigitCh = [] := by
  cases rest with
  | nil => rfl
  | cons c l => simp [List.takeWhile_cons, (h c l rfl).1]

theorem dropWhile_digits_stop (rest : List Char) (h : stopsScan rest) :
    rest.dropWhile isDigitCh = rest := by
  cases rest with
  | nil => rfl
  | cons c l => simp [List.dropWhile_cons, (h c l rfl).1]

/-- The unsigned scanner on `<digits><stop-tail>`. -/
theorem parseFloatBody_int (ds rest : List Char)
    (hne : ds ≠ []) (hds : ∀ c ∈ ds, isDigitCh c = true) (hrest : stopsScan rest) :
    parseFloatBody (ds ++ rest) = some ⟨(digitsVal ds : ℤ), 0⟩ := by
  have htake : (ds ++ rest).takeWhile isDigitCh = ds := by
    rw [takeWhile_append_all ds rest hds, takeWhile_digits_stop rest hrest, List.append_nil]
  have hdrop : (ds ++ rest).dropWhile isDigitCh = rest := by
    rw [dropWhile_append_all ds rest hds, dropWhile_digits_stop rest hrest]
  unfold parseFloatBody
  rw [hdrop, htake, expVal_of_stopsScan rest hrest]
  cases rest with
  | nil => rw [if_neg (by simpa [List.isEmpty_iff] using hne)]
  | cons c l =>
    have hdot := (hrest c l rfl).2.1
    split
    · next heq => exact absurd (List.head_eq_of_cons_eq heq.symm) hdot.symm
    · rw [if_neg (by simpa [List.isEmpty_iff] using hne)]

/-- The unsigned scanner on `<digits>.<digits><stop-tail>`. -/
theorem parseFloatBody_frac (ds fs rest : List Char)
    (hne : ds ≠ []) (hds : ∀ c ∈ ds, isDigitCh c = true)
    (hfs : ∀ c ∈ fs, isDigitCh c = true) (hrest : stopsScan rest) :
    parseFloatBody (ds ++ '.' :: (fs ++ rest)) =
      some ⟨(digitsVal ds : ℤ) * 10 ^ fs.length + (digitsVal fs : ℤ), -(fs.length : ℤ)⟩ := by
  have hdotdig : isDigitCh '.' = false := by decide
  have htake : (ds ++ '.' :: (fs ++ rest)).takeWhile isDigitCh = ds := by
    rw [takeWhile_append_all ds _ hds]
    simp [List.takeWhile_cons, hdotdig]
  have hdrop : (ds ++ '.' :: (fs ++ rest)).dropWhile isDigitCh = '.' :: (fs ++ rest) := by
    rw [dropWhile_append_all ds _ hds]
    simp [List.dropWhile_cons, hdotdig]
  have htake2 : (fs ++ rest).takeWhile isDigitCh = fs := by
    rw [takeWhile_append_all fs rest hfs, takeWhile_digits_stop rest hrest, List.append_nil]
  have hdrop2 : (fs ++ rest).dropWhile isDigitCh = rest := by
    rw [dropWhile_append_all fs rest hfs, dropWhile_digits_stop rest hrest]
  unfold parseFloatBody
  rw [hdrop]
  split
  · next r2 heq =>
    obtain rfl : fs ++ rest = r2 := List.tail_eq_of_cons_eq heq
    rw [htake, htake2, hdrop2, expVal_of_stopsScan rest hrest]
    rw [if_neg (by simp [List.isEmpty_iff, hne])]
    rw [zero_sub]
  · next hno =>
    exact (hno (fs ++ rest) rfl).elim

/-- Rendering of the literal `<digits>[.<digits>]` (the fraction part is
omitted when there are no fraction digits). -/
def litChars (ds fs : List Char) : List Char :=
  ds ++ if fs.isEmpty then [] else '.' :: fs

/-- Rational value of the decimal literal `<ds>.<fs>`. -/
def numVal (ds fs : List Char) : ℚ :=
  (digitsVal ds : ℚ) + (digitsVal fs : ℚ) / 10 ^ fs.length

/-- Full `parseFloat` on a decimal literal followed by a stopping tail. -/
theorem parseFloatChars_literal (ds fs rest : List Char)
    (hne : ds ≠ []) (hds : ∀ c ∈ ds, isDigitCh c = true)
    (hfs : ∀ c ∈ fs, isDigitCh c = true) (hrest : stopsScan rest) :
    parseFloatChars (litChars ds fs ++ rest) =
      some ⟨(digitsVal ds : ℤ) * 10 ^ fs.length + (digitsVal fs : ℤ), -(fs.length : ℤ)⟩ := by
  obtain ⟨d0, ds', rfl⟩ := List.exists_cons_of_ne_nil hne
  have hd0 : isDigitCh d0 = true := hds d0 (List.mem_cons_self _ _)
  have hd0n := isDigitCh_toNat hd0
  have hws : jsWs d0 = false := jsWs_false_of_toNat (by omega) (by omega)
  have hminus : d0 ≠ '-' := ne_of_toNat_ne (by have : ('-').toNat = 45 := rfl; omega)
  have hplus : d0 ≠ '+' := ne_of_toNat_ne (by have : ('+').toNat = 43 := rfl; omega)
  have key : ∀ t : List Char, parseFloatChars (d0 :: t)
      = (parseFloatBody (d0 :: t)).map (fun d => ⟨1 * d.m, d.e⟩) := by
    intro t
    unfold parseFloatChars
    rw [List.dropWhile_cons, hws]
    simp only [Bool.false_eq_true, if_false, splitSign, if_neg hminus, if_neg hplus]
  cases fs with
  | nil =>
    have hlit : litChars (d0 :: ds') [] ++ rest = d0 :: (ds' ++ rest) := by simp [litChars]
    rw [hlit, key (ds' ++ rest)]
    rw [show d0 :: (ds' ++ rest) = (d0 :: ds') ++ rest from rfl]
    rw [parseFloatBody_int (d0 :: ds') rest (by simp) hds hrest]
    simp [digitsVal]
  | cons f fs' =>
    have hlit : litChars (d0 :: ds') (f :: fs') ++ rest
        = d0 :: (ds' ++ '.' :: ((f :: fs') ++ rest)) := by simp [litChars]
    rw [hlit, key (ds' ++ '.' :: ((f :: fs') ++ rest))]
    rw [show d0 :: (ds' ++ '.' :: ((f :: fs') ++ rest))
        = (d0 :: ds') ++ '.' :: ((f :: fs') ++ rest) from rfl]
    rw [parseFloatBody_frac (d0 :: ds') (f :: fs') rest (by simp) hds hfs hrest]
    simp

theorem stopsScan_cons (x : Char) (t : List Char) (h1 : isDigitCh x = false)
    (h2 : x ≠ '.') (h3 : x ≠ 'e') (h4 : x ≠ 'E') : stopsScan (x :: t) := by
  intro c l heq
  injection heq with hx hl
  subst hx
  exact ⟨h1, h2, h3, h4⟩

theorem listContains_singleton_false (hay : List Char) (c : Char) (h : c ∉ hay) :
    listContains hay [c] = false := by
  rw [Bool.eq_false_iff]
  intro ht
  exact h ((listContains_singleton hay c).mp ht)

/-- Every character of a rendered decimal literal has a code point in
`[46, 57]` (digits and the dot). -/
theorem litChars_bounds (ds fs : List Char)
    (hds : ∀ ch ∈ ds, isDigitCh ch = true) (hfs : ∀ ch ∈ fs, isDigitCh ch = true) :
    ∀ ch ∈ litChars ds fs, 46 ≤ ch.toNat ∧ ch.toNat ≤ 57 := by
  intro ch hch
  rcases List.mem_append.mp hch with h | h
  · have := isDigitCh_toNat (hds ch h)
    omega
  · split at h
    · exact absurd h (List.not_mem_nil ch)
    · rcases List.mem_cons.mp h with rfl | h
      · have : ('.').toNat = 46 := rfl
        omega
      · have := isDigitCh_toNat (hfs ch h)
        omega

/-- `Math.round` of a decimal literal scaled by a natural constant, in terms
of the literal's rational value. -/
theorem jroundDec_lit_mul (ds fs : List Char) (k : ℕ) :
    jroundDec ⟨((digitsVal ds : ℤ) * 10 ^ fs.length + (digitsVal fs : ℤ)) * (k : ℤ),
               -(fs.length : ℤ)⟩
      = ⌊numVal ds fs * (k : ℚ) + 1 / 2⌋ := by
  rw [jroundDec_eq_floor]
  congr 2
  unfold Dec.toQ numVal
  simp only
  rw [zpow_neg, zpow_natCast]
  have h10 : ((10 : ℚ) ^ fs.length) ≠ 0 := by positivity
  push_cast
  field_simp

/-- **C8.**  For every duration string of the form `<number><unit>` where
`<number>` is the decimal literal with integer digits `ds` and fraction
digits `fs` (value `numVal ds fs`) and the unit is `d`, `w`, `mo` or `y`,
`parseAgeToDays` returns `round(number * unitDays)` with `unitDays`
1, 7, 30 and 365 respectively (`round q = ⌊q + 1/2⌋`, JavaScript
`Math.round`). -/
theorem C8_unit_suffix_rounding (ds fs : List Char) (u : String) (k : ℕ)
    (hne : ds ≠ []) (hds : ∀ ch ∈ ds, isDigitCh ch = true)
    (hfs : ∀ ch ∈ fs, isDigitCh ch = true)
    (hu : (u, k) ∈ [("d", 1), ("w", 7), ("mo", 30), ("y", 365)]) :
    parseAgeToDays (some ⟨litChars ds fs ++ u.data⟩)
      = some ⌊numVal ds fs * (k : ℚ) + 1 / 2⌋ := by
  have hlitb := litChars_bounds ds fs hds hfs
  have hNotIn : ∀ (x : Char) (v : List Char), 57 < x.toNat → x ∉ v →
      x ∉ litChars ds fs ++ v := by
    intro x v hx hxv hmem
    rcases List.mem_append.mp hmem with h | h
    · have := hlitb x h
      omega
    · exact hxv h
  have hPrep : ∀ v : List Char, (∀ c ∈ v, 97 ≤ c.toNat ∧ c.toNat ≤ 122) →
      jsTrim (jsToLower (litChars ds fs ++ v)) = litChars ds fs ++ v := by
    intro v hv
    rw [jsToLower_eq_self _ ?hlo, jsTrim_eq_self _ ?htr]
    case hlo =>
      intro c hc
      rcases List.mem_append.mp hc with h | h
      · exact toLower_eq_self_of_toNat (Or.inl (by have := hlitb c h; omega))
      · exact toLower_eq_self_of_toNat (Or.inr (by have := hv c h; omega))
    case htr =>
      intro c hc
      rcases List.mem_append.mp hc with h | h
      · exact jsWs_false_of_toNat (by have := hlitb c h; omega)
          (by have := hlitb c h; omega)
      · exact jsWs_false_of_toNat (by have := hv c h; omega)
          (by have := hv c h; omega)
  simp only [List.mem_cons, List.not_mem_nil, or_false, Prod.mk.injEq] at hu
  rcases hu with ⟨rfl, rfl⟩ | ⟨rfl, rfl⟩ | ⟨rfl, rfl⟩ | ⟨rfl, rfl⟩
  · -- unit "d"
    show parseAgeChars (jsTrim (jsToLower (litChars ds fs ++ ['d']))) = _
    rw [hPrep ['d'] (by decide)]
    unfold parseAgeChars
    rw [if_neg (by rw [listContains_singleton_false _ 'y'
          (hNotIn 'y' ['d'] (by decide) (by decide))]; exact Bool.false_ne_true)]
    rw [if_neg (by rw [listContains_false_of_head_not_mem _ 'm' ['o']
          (hNotIn 'm' ['d'] (by decide) (by decide))]; exact Bool.false_ne_true)]
    rw [if_neg (by rw [listContains_singleton_false _ 'w'
          (hNotIn 'w' ['d'] (by decide) (by decide))]; exact Bool.false_ne_true)]
    rw [if_pos ((listContains_singleton _ 'd').mpr
          (List.mem_append_right _ (by decide)))]
    rw [parseFloatChars_literal ds fs ['d'] hne hds hfs
          (stopsScan_cons 'd' [] (by decide) (by decide) (by decide) (by decide))]
    have hk := jroundDec_lit_mul ds fs 1
    simp only [Nat.cast_one, mul_one] at hk ⊢
    rw [Option.map_some', hk]
  · -- unit "w"
    show parseAgeChars (jsTrim (jsToLower (litChars ds fs ++ ['w']))) = _
    rw [hPrep ['w'] (by decide)]
    unfold parseAgeChars
    rw [if_neg (by rw [listContains_singleton_false _ 'y'
          (hNotIn 'y' ['w'] (by decide) (by decide))]; exact Bool.false_ne_true)]
    rw [if_neg (by rw [listContains_false_of_head_not_mem _ 'm' ['o']
          (hNotIn 'm' ['w'] (by decide) (by decide))]; exact Bool.false_ne_true)]
    rw [if_pos ((listContains_singleton _ 'w').mpr
          (List.mem_append_right _ (by decide)))]
    rw [parseFloatChars_literal ds fs ['w'] hne hds hfs
          (stopsScan_cons 'w' [] (by decide) (by decide) (by decide) (by decide))]
    have hk := jroundDec_lit_mul ds fs 7
    push_cast at hk ⊢
    rw [Option.map_some', hk]
  · -- unit "mo"
    show parseAgeChars (jsTrim (jsToLower (litChars ds fs ++ ['m', 'o']))) = _
    rw [hPrep ['m', 'o'] (by decide)]
    unfold parseAgeChars
    rw [if_neg (by rw [listContains_singleton_false _ 'y'
          (hNotIn 'y' ['m', 'o'] (by decide) (by decide))]; exact Bool.false_ne_true)]
    rw [if_pos ((listContains_infix_iff _ _).mpr ⟨litChars ds fs, [], by simp⟩)]
    rw [parseFloatChars_literal ds fs ['m', 'o'] hne hds hfs
          (stopsScan_cons 'm' ['o'] (by decide) (by decide) (by decide) (by decide))]
    have hk := jroundDec_lit_mul ds fs 30
    push_cast at hk ⊢
    rw [Option.map_some', hk]
  · -- unit "y"
    show parseAgeChars (jsTrim (jsToLower (litChars ds fs ++ ['y']))) = _
    rw [hPrep ['y'] (by decide)]
    unfold parseAgeChars
    rw [if_pos ((listContains_singleton _ 'y').mpr
          (List.mem_append_right _ (by decide)))]
    rw [parseFloatChars_literal ds fs ['y'] hne hds hfs
          (stopsScan_cons 'y' [] (by decide) (by decide) (by decide) (by decide))]
    have hk := jroundDec_lit_mul ds fs 365
    push_cast at hk ⊢
    rw [Option.map_some', hk]

/-- Witness for C8: `"1.5w"` gives `round(1.5 * 7) = 11` and `"0.5y"` gives
`round(0.5 * 365) = 183`, each obtained from the general theorem. -/
theorem C8_unit_suffix_rounding_witness :
    parseAgeToDays (some "1.5w") = some 11 ∧
    (11 : ℤ) = ⌊numVal ['1'] ['5'] * ((7 : ℕ) : ℚ) + 1 / 2⌋ ∧
    parseAgeToDays (some "0.5y") = some 183 ∧
    (183 : ℤ) = ⌊numVal ['0'] ['5'] * ((365 : ℕ) : ℚ) + 1 / 2⌋ := by
  refine ⟨by decide, ?_, by decide, ?_⟩
  · have h := C8_unit_suffix_rounding ['1'] ['5'] "w" 7 (by decide) (by decide)
      (by decide) (by decide)
    have h2 : parseAgeToDays (some "1.5w")
        = parseAgeToDays (some ⟨litChars ['1'] ['5'] ++ "w".data⟩) := by decide
    have h3 : parseAgeToDays (some "1.5w") = some 11 := by decide
    exact Option.some.inj ((h3.symm.trans (h2.trans h)))
  · have h := C8_unit_suffix_rounding ['0'] ['5'] "y" 365 (by decide) (by decide)
      (by decide) (by decide)
    have h2 : parseAgeToDays (some "0.5y")
        = parseAgeToDays (some ⟨litChars ['0'] ['5'] ++ "y".data⟩) := by decide
    have h3 : parseAgeToDays (some "0.5y") = some 183 := by decide
    exact Option.some.inj ((h3.symm.trans (h2.trans h)))

/-- **C10.**  Unit dispatch is by substring containment with the year check
first: every input whose prepared (lower-cased, trimmed) form contains the
letter `y` anywhere is classified as years and returns
`round(parseFloat(str) * 365)`, even when `y` is not a unit suffix. -/
theorem C10_y_substring_dispatch (s : String)
    (h : listContains (jsTrim (jsToLower s.data)) ['y'] = true) :
    parseAgeToDays (some s)
      = (parseFloatChars (jsTrim (jsToLower s.data))).map
          (fun d => ⌊d.toQ * 365 + 1 / 2⌋) := by
  show parseAgeChars (jsTrim (jsToLower s.data)) = _
  unfold parseAgeChars
  rw [if_pos h]
  cases hp : parseFloatChars (jsTrim (jsToLower s.data)) with
  | none => rfl
  | some d =>
    simp only [Option.map_some']
    congr 1
    rw [jroundDec_eq_floor]
    congr 1
    unfold Dec.toQ
    simp only
    push_cast
    ring

/-- Witness for C10: `"5 days"` contains a `y` (in "days"), so it is read
as 5 *years*: the result is 1825, not 5. -/
theorem C10_y_substring_dispatch_witness :
    parseAgeToDays (some "5 days")
        = (parseFloatChars (jsTrim (jsToLower "5 days".data))).map
            (fun d => ⌊d.toQ * 365 + 1 / 2⌋) ∧
    parseAgeToDays (some "5 days") = some 1825 ∧ (1825 : ℤ) ≠ 5 :=
  ⟨C10_y_substring_dispatch "5 days" (by decide), by decide, by decide⟩

/-- **C1.**  The duration parser is *not* total-and-non-negative as claimed:
`"invalid"` contains the letter `d`, so the code takes the day branch and
returns `Math.round(parseFloat("invalid"))`, which is NaN (modelled `none`)
— while the repository's own test suite (`src/tests/api.test.ts`,
"returns 0 for non-numeric string") expects 0; and `"-5"` yields the
negative value −5. -/
theorem C1_duration_parser_divergence :
    parseAgeToDays (some "invalid") = none ∧
    parseAgeToDays (some "-5") = some (-5) ∧ ¬(0 : ℤ) ≤ -5 := by
  refine ⟨by decide, by decide, by decide⟩

/-! ## The JSON/JS value model and string coercion -/

/-- Runtime JavaScript values as they occur in the fetched JSON payloads
(plus `undefined`, which arises from absent-property reads).  Numbers carry
the exact decimal representation (`none` = NaN). -/
inductive JVal where
  | null
  | undefined
  | bool (b : Bool)
  | num (d : Option Dec)
  | str (s : String)
  | arr (xs : List JVal)
  | obj (fields : List (String × JVal))

/-- `item !== null && item !== undefined`, negated. -/
def isNullish : JVal → Bool
  | .null => true
  | .undefined => true
  | _ => false

/-- JavaScript truthiness. -/
def truthy : JVal → Bool
  | .null => false
  | .undefined => false
  | .bool b => b
  | .num none => false
  | .num (some d) => !(d.m == 0)
  | .str s => !(s == "")
  | .arr _ => true
  | .obj _ => true

/-- Decimal digit string of a natural number (the `${index}` rendering). -/
def natToChars (n : ℕ) : List Char :=
  if n = 0 then ['0'] else ((Nat.digits 10 n).map Nat.digitChar).reverse

def intToChars (n : ℤ) : List Char :=
  if n < 0 then '-' :: natToChars (-n).toNat else natToChars n.toNat

/-- Rendering of a numeric value.  Integers are rendered exactly as JS
does; non-integer scales use an exact mantissa/exponent spelling (a
documented idealization of JS shortest-round-trip formatting — no claim
inspects this case). -/
def jsNumToString (d : Dec) : List Char :=
  if d.e = 0 then intToChars d.m else intToChars d.m ++ 'e' :: intToChars d.e

mutual

/-- The JavaScript `String(...)` coercion (ECMAScript `ToString`):
`null`/`undefined`/booleans/numbers/strings as usual, arrays join their
elements with `,` (eliding null/undefined elements), plain objects render
as `[object Object]`. -/
def jsToString : JVal → String
  | .null => "null"
  | .undefined => "undefined"
  | .bool true => "true"
  | .bool false => "false"
  | .num none => "NaN"
  | .num (some d) => ⟨jsNumToString d⟩
  | .str s => s
  | .arr xs => String.intercalate "," (jsToStringElems xs)
  | .obj _ => "[object Object]"

def jsToStringElems : List JVal → List String
  | [] => []
  | .null :: t => "" :: jsToStringElems t
  | .undefined :: t => "" :: jsToStringElems t
  | x :: t => jsToString x :: jsToStringElems t

end

/-! ## The Record Normalizer (`normalizeData`, `src/services/api.ts:79-157`) -/

/-- The four classification tags with their enum string values
(`PackageSet` in `src/types.ts`). -/
inductive PackageSet where
  | MAIN
  | UNIVERSE
  | RESTRICTED
  | MULTIVERSE
  deriving DecidableEq, Fintype

def PackageSet.str : PackageSet → String
  | .MAIN => "Main"
  | .UNIVERSE => "Universe"
  | .RESTRICTED => "Restricted"
  | .MULTIVERSE => "Multiverse"

/-- The canonical record (`MergePackage` in `src/types.ts`).  `teams` keeps
the runtime type (the code copies the array without coercing elements);
`ageInDays` is `Option ℤ` because `parseAgeToDays` can produce NaN;
`lastUpdated` is the normalization timestamp, passed in as a parameter
(`new Date().toISOString()` in the source). -/
structure MergePackage where
  id : String
  name : String
  ubuntuVersion : String
  debianVersion : String
  component : PackageSet
  teams : List JVal
  age : String
  ageInDays : Option ℤ
  uploader : String
  lastUpdated : String

/-- The case-insensitive view `lowerKeys`: every key lower-cased, a later
duplicate overwriting an earlier one (JS object assignment), and absent
keys reading as `undefined`. -/
def lowerGet (fields : List (String × JVal)) (k : String) : JVal :=
  match (fields.filter (fun p => (⟨jsToLower p.1.data⟩ : String) == k)).getLast? with
  | some p => p.2
  | none => .undefined

/-- JavaScript `a || b`. -/
def jsOr (a b : JVal) : JVal := if truthy a then a else b

/-- Strict equality test `name === 'Unknown'`. -/
def isUnknownStr : JVal → Bool
  | .str s => s == "Unknown"
  | _ => false

/-- The identity template literal `` `${component}-${name}-${index}` ``. -/
def mkId (c : PackageSet) (nm : String) (idx : ℕ) : String :=
  ⟨c.str.data ++ '-' :: (nm.data ++ '-' :: natToChars idx)⟩

/-- The body of `normalizeData`'s `.map((item, index) => …)`
(`src/services/api.ts:96-156`): per-entry shape polymorphism.  Entries that
are neither arrays nor objects keep all the defaults (in JS they fall
through both strategies).  `null`/`undefined` never reach this function
(they are filtered out first); the catch-all branch returns defaults for
them too. -/
def normalizeItem (component : PackageSet) (now : String) (idx : ℕ) (item : JVal) :
    MergePackage :=
  match item with
  | .arr xs =>
    let name := jsOr (xs.getD 0 .undefined) (.str "Unknown")
    let ubuntu := jsOr (xs.getD 1 .undefined) (.str "N/A")
    let debian := jsOr (xs.getD 2 .undefined) (.str "N/A")
    { id := mkId component (jsToString name) idx
      name := jsToString name
      ubuntuVersion := jsToString ubuntu
      debianVersion := jsToString debian
      component := component
      teams := []
      age := "0d"
      ageInDays := parseAgeToDays (some "0d")
      uploader := "Unknown"
      lastUpdated := now }
  | .obj fs =>
    let name0 := jsOr (lowerGet fs "source_package") (jsOr (lowerGet fs "source")
      (jsOr (lowerGet fs "package") (jsOr (lowerGet fs "name")
      (jsOr (lowerGet fs "pkg") (jsOr (lowerGet fs "src") (.str "Unknown"))))))
    let ubuntu := jsOr (lowerGet fs "left_version") (jsOr (lowerGet fs "version_ubuntu")
      (jsOr (lowerGet fs "ubuntu_version") (jsOr (lowerGet fs "ubuntu")
      (jsOr (lowerGet fs "version") (.str "N/A")))))
    let debian := jsOr (lowerGet fs "right_version") (jsOr (lowerGet fs "version_debian")
      (jsOr (lowerGet fs "debian_version") (jsOr (lowerGet fs "debian")
      (jsOr (lowerGet fs "new_version") (.str "N/A")))))
    let teams : List JVal :=
      match lowerGet fs "teams" with
      | .arr ts => ts   -- `lowerKeys.teams && Array.isArray(…)`: arrays are always truthy
      | _ => []
    let age := if truthy (lowerGet fs "age") then jsToString (lowerGet fs "age") else "0d"
    let uploader := jsOr (lowerGet fs "uploader") (jsOr (lowerGet fs "user")
      (jsOr (lowerGet fs "changed_by") (.str "Unknown")))
    let name := if isUnknownStr name0 then
        .str ("Unknown (Keys: " ++ String.intercalate ", " ((fs.map Prod.fst).take 5) ++ ")")
      else name0
    { id := mkId component (jsToString name) idx
      name := jsToString name
      ubuntuVersion := jsToString ubuntu
      debianVersion := jsToString debian
      component := component
      teams := teams
      age := age
      ageInDays := parseAgeToDays (some age)
      uploader := jsToString uploader
      lastUpdated := now }
  | _ =>
    { id := mkId component "Unknown" idx
      name := "Unknown"
      ubuntuVersion := "N/A"
      debianVersion := "N/A"
      component := component
      teams := []
      age := "0d"
      ageInDays := parseAgeToDays (some "0d")
      uploader := "Unknown"
      lastUpdated := now }

/-- Shape detection of `normalizeData`: a truthy non-array object
contributes its values (`Object.values`), an array is used directly, and
any other shape (null, undefined, primitives) is rejected. -/
def rawList : JVal → Option (List JVal)
  | .obj fs => some (fs.map Prod.snd)
  | .arr xs => some xs
  | _ => none

/-- `normalizeData` (`src/services/api.ts:79`): shape detection, silent
filtering of null/undefined entries, then indexed per-entry normalization.
The unexpected-shape branch logs a warning (a side effect outside the
model) and returns `[]`. -/
def normalizeData (rawData : JVal) (component : PackageSet) (now : String) :
    List MergePackage :=
  match rawList rawData with
  | none => []
  | some list =>
    ((list.filter (fun it => !isNullish it)).enum).map
      (fun p => normalizeItem component now p.1 p.2)

/-- `fetchMergeData` (`src/services/api.ts:159`), with retrieval abstracted
away: the four fetched payloads enter as parameters and the result is the
concatenation of the four normalized batches in classification order. -/
def fetchMergeData (mainData universeData restrictedData multiverseData : JVal)
    (now : String) : List MergePackage :=
  normalizeData mainData .MAIN now ++ normalizeData universeData .UNIVERSE now ++
    normalizeData restrictedData .RESTRICTED now ++
    normalizeData multiverseData .MULTIVERSE now

example :
    (normalizeData (.arr [.obj [("source_package", .str "test-pkg"),
        ("left_version", .str "1.0-1ubuntu1"), ("right_version", .str "1.0-2"),
        ("age", .str "5d"), ("uploader", .str "Test User <test@example.com>")]])
      .MAIN "t").map (fun r => (r.name, r.ubuntuVersion, r.debianVersion, r.uploader, r.age))
    = [("test-pkg", "1.0-1ubuntu1", "1.0-2", "Test User <test@example.com>", "5d")] := by
  decide

example :
    (normalizeData (.arr [.arr [.str "array-pkg", .str "2.0-1", .str "2.0-2"]])
      .UNIVERSE "t").map (fun r => (r.name, r.ubuntuVersion, r.debianVersion))
    = [("array-pkg", "2.0-1", "2.0-2")] := by decide

example : normalizeData .null .MAIN "t" = [] := rfl
example : normalizeData (.str "oops") .MAIN "t" = [] := rfl
example :
    (normalizeData (.obj [("a", .obj [("source", .str "pkg-a")]),
        ("b", .null), ("c", .obj [("SOURCE", .str "pkg-c")])])
      .RESTRICTED "t").map (fun r => r.name) = ["pkg-a", "pkg-c"] := by decide

/-- Resolution of one canonical field: the value of the first candidate
key whose (case-insensitively looked-up) value is truthy, or the default
when no candidate value is truthy. -/
def firstTruthy (fs : List (String × JVal)) (cands : List String) (dflt : JVal) : JVal :=
  match cands with
  | [] => dflt
  | k :: rest => if truthy (lowerGet fs k) then lowerGet fs k else firstTruthy fs rest dflt

/-- **C2 counterexample.**  The claim predicts that a *present,
non-undefined* candidate value wins even when falsy: on
`{source_package: "", source: "real"}` it predicts name `""`; the code's
`||` chain skips the falsy empty string and resolves `"real"`. -/
theorem C2_counterexample_falsy_skipped :
    (normalizeData (.arr [.obj [("source_package", .str ""), ("source", .str "real")]])
        .MAIN "now").map (fun r => r.name) = ["real"] ∧ ("real" : String) ≠ "" := by
  refine ⟨by decide, by decide⟩

/-- **C2 (amended).**  For every keyed-variant entry, each of the four
canonical fields (name, primaryVersion, referenceVersion, submitter)
resolves to the value of the first candidate key — looked up lower-cased —
whose value is *truthy*; only when no candidate value is truthy does the
field take its sentinel default.  (Present-but-falsy values such as `""`,
`0`, `null` or `false` are skipped, unlike the frozen claim's
"present with a non-undefined value".)  The name field is additionally
replaced by the keys-diagnostic string when it resolves to the literal
string `"Unknown"`, hence the hypothesis. -/
theorem C2_fields_resolve_first_truthy (fs : List (String × JVal)) (c : PackageSet)
    (now : String) (idx : ℕ)
    (hname : isUnknownStr (firstTruthy fs
      ["source_package", "source", "package", "name", "pkg", "src"]
      (.str "Unknown")) = false) :
    (normalizeItem c now idx (.obj fs)).name
      = jsToString (firstTruthy fs
          ["source_package", "source", "package", "name", "pkg", "src"] (.str "Unknown")) ∧
    (normalizeItem c now idx (.obj fs)).ubuntuVersion
      = jsToString (firstTruthy fs
          ["left_version", "version_ubuntu", "ubuntu_version", "ubuntu", "version"]
          (.str "N/A")) ∧
    (normalizeItem c now idx (.obj fs)).debianVersion
      = jsToString (firstTruthy fs
          ["right_version", "version_debian", "debian_version", "debian", "new_version"]
          (.str "N/A")) ∧
    (normalizeItem c now idx (.obj fs)).uploader
      = jsToString (firstTruthy fs ["uploader", "user", "changed_by"] (.str "Unknown")) := by
  simp only [firstTruthy] at hname ⊢
  simp only [normalizeItem, jsOr]
  rw [if_neg (by rw [hname]; exact Bool.false_ne_true)]
  refine ⟨?_, ?_, ?_, ?_⟩ <;> trivial

/-- Witness for the amended C2: on
`{source_package: "", Source: "real", USER: "alice"}` the name resolves to
`"real"` (skipping the falsy `""`, finding `Source` case-insensitively),
the versions fall back to their `N/A` sentinels, and the submitter comes
from `USER`. -/
theorem C2_fields_resolve_first_truthy_witness :
    (normalizeItem .MAIN "now" 0
        (.obj [("source_package", .str ""), ("Source", .str "real"),
               ("USER", .str "alice")])).name
      = jsToString (firstTruthy
          [("source_package", .str ""), ("Source", .str "real"), ("USER", .str "alice")]
          ["source_package", "source", "package", "name", "pkg", "src"] (.str "Unknown")) ∧
    (normalizeItem .MAIN "now" 0
        (.obj [("source_package", .str ""), ("Source", .str "real"),
               ("USER", .str "alice")])).name = "real" ∧
    (normalizeItem .MAIN "now" 0
        (.obj [("source_package", .str ""), ("Source", .str "real"),
               ("USER", .str "alice")])).ubuntuVersion = "N/A" ∧
    (normalizeItem .MAIN "now" 0
        (.obj [("source_package", .str ""), ("Source", .str "real"),
               ("USER", .str "alice")])).uploader = "alice" :=
  ⟨(C2_fields_resolve_first_truthy
      [("source_package", .str ""), ("Source", .str "real"), ("USER", .str "alice")]
      .MAIN "now" 0 (by decide)).1,
   by decide, by decide, by decide⟩

/-- **C4.**  `normalizeData` is total over every JSON-shaped input by
construction (it is a total function of the model, mirroring the source's
guarantee that no exception propagates); on any input that is neither an
array nor a (truthy, non-null) object — null, undefined, booleans, numbers,
strings — the shape detector rejects and the result is the empty list. -/
theorem C4_normalize_rejects_non_list_shapes (raw : JVal) (c : PackageSet) (now : String)
    (h : rawList raw = none) : normalizeData raw c now = [] := by
  unfold normalizeData
  rw [h]

/-- Witness for C4 at the primitive input `"oops"` (and, by the same
theorem, at `null`). -/
theorem C4_normalize_rejects_non_list_shapes_witness :
    normalizeData (.str "oops") .MAIN "now" = [] ∧
    normalizeData .null .UNIVERSE "now" = [] :=
  ⟨C4_normalize_rejects_non_list_shapes (.str "oops") .MAIN "now" rfl,
   C4_normalize_rejects_non_list_shapes .null .UNIVERSE "now" rfl⟩

/-! ## Identity uniqueness machinery (C5) -/

theorem digitChar_toNat {d : ℕ} (h : d < 10) : (Nat.digitChar d).toNat = 48 + d := by
  interval_cases d <;> rfl

theorem digitsVal_append_one (l : List Char) (c : Char) :
    digitsVal (l ++ [c]) = 10 * digitsVal l + (c.toNat - 48) := by
  unfold digitsVal
  rw [List.foldl_append]
  rfl

theorem digitsVal_rev_digits (L : List ℕ) (hL : ∀ d ∈ L, d < 10) :
    digitsVal ((L.map Nat.digitChar).reverse) = Nat.ofDigits 10 L := by
  induction L with
  | nil => rfl
  | cons d t ih =>
    rw [List.map_cons, List.reverse_cons, digitsVal_append_one,
      ih (fun x hx => hL x (List.mem_cons_of_mem d hx)),
      digitChar_toNat (hL d (List.mem_cons_self d t)), Nat.ofDigits_cons]
    omega

theorem digitsVal_natToChars (n : ℕ) : digitsVal (natToChars n) = n := by
  unfold natToChars
  split
  · next h => subst h; rfl
  · rw [digitsVal_rev_digits _ (fun d hd => Nat.digits_lt_base (by norm_num) hd)]
    exact_mod_cast Nat.ofDigits_digits 10 n

theorem natToChars_inj {a b : ℕ} (h : natToChars a = natToChars b) : a = b := by
  have ha := digitsVal_natToChars a
  rw [h, digitsVal_natToChars] at ha
  omega

theorem natToChars_bounds (n : ℕ) : ∀ c ∈ natToChars n, 48 ≤ c.toNat ∧ c.toNat ≤ 57 := by
  intro c hc
  unfold natToChars at hc
  split at hc
  · have := List.mem_singleton.mp hc
    subst this
    exact ⟨by decide, by decide⟩
  · rcases List.mem_map.mp (List.mem_reverse.mp hc) with ⟨d, hd, rfl⟩
    have hd10 : d < 10 := Nat.digits_lt_base (by norm_num) hd
    rw [digitChar_toNat hd10]
    omega

/-- The segment of a string after its last `-`. -/
def afterLastDash (l : List Char) : List Char :=
  (l.reverse.takeWhile (fun c => c != '-')).reverse

/-- The segment of a string before its first `-`. -/
def beforeFirstDash (l : List Char) : List Char :=
  l.takeWhile (fun c => c != '-')

theorem afterLastDash_spec (p d : List Char) (hd : ∀ c ∈ d, c ≠ '-') :
    afterLastDash (p ++ '-' :: d) = d := by
  unfold afterLastDash
  rw [show p ++ '-' :: d = (p ++ ['-']) ++ d by simp, List.reverse_append]
  rw [takeWhile_append_all _ _ (by
    intro c hc
    simp only [bne_iff_ne, ne_eq, decide_eq_true_eq]
    exact hd c (List.mem_reverse.mp hc))]
  rw [show (p ++ ['-']).reverse = '-' :: p.reverse by simp]
  simp [List.takeWhile_cons]

theorem beforeFirstDash_spec (p rest : List Char) (hp : ∀ c ∈ p, c ≠ '-') :
    beforeFirstDash (p ++ '-' :: rest) = p := by
  unfold beforeFirstDash
  rw [takeWhile_append_all _ _ (by
    intro c hc
    simp only [bne_iff_ne, ne_eq, decide_eq_true_eq]
    exact hp c hc)]
  simp [List.takeWhile_cons]

theorem mkId_afterLastDash (c : PackageSet) (nm : String) (idx : ℕ) :
    afterLastDash (mkId c nm idx).data = natToChars idx := by
  show afterLastDash (c.str.data ++ '-' :: (nm.data ++ '-' :: natToChars idx))
      = natToChars idx
  rw [show c.str.data ++ '-' :: (nm.data ++ '-' :: natToChars idx)
      = (c.str.data ++ '-' :: nm.data) ++ '-' :: natToChars idx by simp]
  exact afterLastDash_spec _ _ (fun ch hc => by
    have := natToChars_bounds idx ch hc
    exact ne_of_toNat_ne (by have h45 : ('-').toNat = 45 := rfl; omega))

theorem mkId_beforeFirstDash (c : PackageSet) (nm : String) (idx : ℕ) :
    beforeFirstDash (mkId c nm idx).data = c.str.data := by
  show beforeFirstDash (c.str.data ++ '-' :: (nm.data ++ '-' :: natToChars idx))
      = c.str.data
  exact beforeFirstDash_spec _ _ (by cases c <;> decide)

theorem normalizeItem_id_shape (c : PackageSet) (now : String) (idx : ℕ) (item : JVal) :
    ∃ nm : String, (normalizeItem c now idx item).id = mkId c nm idx := by
  cases item <;> exact ⟨_, rfl⟩

theorem normalizeItem_component (c : PackageSet) (now : String) (idx : ℕ) (item : JVal) :
    (normalizeItem c now idx item).component = c := by
  cases item <;> rfl

theorem normalizeData_id_shape (raw : JVal) (c : PackageSet) (now : String) :
    ∀ p ∈ normalizeData raw c now, ∃ nm idx, p.id = mkId c nm idx ∧ p.component = c := by
  intro p hp
  unfold normalizeData at hp
  split at hp
  · exact absurd hp (List.not_mem_nil p)
  · rcases List.mem_map.mp hp with ⟨⟨i, it⟩, hmem, rfl⟩
    obtain ⟨nm, hnm⟩ := normalizeItem_id_shape c now i it
    exact ⟨nm, i, hnm, normalizeItem_component c now i it⟩

theorem normalizeData_ids_nodup (raw : JVal) (c : PackageSet) (now : String) :
    ((normalizeData raw c now).map (fun p => p.id)).Nodup := by
  unfold normalizeData
  split
  · simp
  · next list hlist =>
    apply List.Nodup.of_map (fun s : String => digitsVal (afterLastDash s.data))
    rw [List.map_map, List.map_map]
    have hfun : ∀ q : ℕ × JVal,
        digitsVal (afterLastDash (normalizeItem c now q.1 q.2).id.data) = q.1 := by
      intro q
      obtain ⟨nm, hnm⟩ := normalizeItem_id_shape c now q.1 q.2
      rw [hnm, mkId_afterLastDash, digitsVal_natToChars]
    have heq : List.map
        (((fun s : String => digitsVal (afterLastDash s.data))
            ∘ fun p : MergePackage => p.id)
          ∘ fun p : ℕ × JVal => normalizeItem c now p.1 p.2)
        ((list.filter (fun it => !isNullish it)).enum)
        = List.map Prod.fst ((list.filter (fun it => !isNullish it)).enum) :=
      List.map_congr_left (fun q _ => hfun q)
    rw [heq, List.enum_map_fst]
    exact List.nodup_range _

theorem normalizeData_ids_before (raw : JVal) (c : PackageSet) (now : String) :
    ∀ s ∈ (normalizeData raw c now).map (fun p => p.id),
      beforeFirstDash s.data = c.str.data := by
  intro s hs
  rcases List.mem_map.mp hs with ⟨p, hp, rfl⟩
  obtain ⟨nm, idx, hid, _⟩ := normalizeData_id_shape raw c now p hp
  rw [hid, mkId_beforeFirstDash]

/-- **C5.**  Every record's identity embeds its classification tag (the
tag string followed by `-` is a prefix of the identity), and identities
are pairwise distinct across the full combined set of the four normalized
batches — even for records with identical names from different
classifications (the tag and the ordinal position make them differ). -/
theorem C5_identity_tagged_and_unique (m u r mv : JVal) (now : String) :
    (∀ p ∈ fetchMergeData m u r mv now, (p.component.str ++ "-").data <+: p.id.data) ∧
    ((fetchMergeData m u r mv now).map (fun p => p.id)).Nodup := by
  have hstr_inj : ∀ a b : PackageSet, a.str.data = b.str.data → a = b := by decide
  constructor
  · intro p hp
    have key : ∀ (raw : JVal) (c : PackageSet), p ∈ normalizeData raw c now →
        (p.component.str ++ "-").data <+: p.id.data := by
      intro raw c hpc
      obtain ⟨nm, idx, hid, hcomp⟩ := normalizeData_id_shape raw c now p hpc
      rw [hid, hcomp]
      show (c.str ++ "-").data <+: c.str.data ++ '-' :: (nm.data ++ '-' :: natToChars idx)
      refine ⟨nm.data ++ '-' :: natToChars idx, ?_⟩
      rw [String.data_append]
      simp
    unfold fetchMergeData at hp
    simp only [List.mem_append] at hp
    rcases hp with ((h1 | h2) | h3) | h4
    · exact key m .MAIN h1
    · exact key u .UNIVERSE h2
    · exact key r .RESTRICTED h3
    · exact key mv .MULTIVERSE h4
  · have hdisj : ∀ (r1 r2 : JVal) (c1 c2 : PackageSet), c1 ≠ c2 →
        ((normalizeData r1 c1 now).map (fun p => p.id)).Disjoint
          ((normalizeData r2 c2 now).map (fun p => p.id)) := by
      intro r1 r2 c1 c2 hne s hs1 hs2
      have h1 := normalizeData_ids_before r1 c1 now s hs1
      have h2 := normalizeData_ids_before r2 c2 now s hs2
      rw [h1] at h2
      exact hne (hstr_inj c1 c2 h2)
    unfold fetchMergeData
    rw [List.map_append, List.map_append, List.map_append]
    rw [List.nodup_append, List.nodup_append, List.nodup_append]
    refine ⟨⟨⟨normalizeData_ids_nodup m .MAIN now, normalizeData_ids_nodup u .UNIVERSE now,
        hdisj m u .MAIN .UNIVERSE (by decide)⟩,
      normalizeData_ids_nodup r .RESTRICTED now, ?_⟩,
      normalizeData_ids_nodup mv .MULTIVERSE now, ?_⟩
    · rw [List.disjoint_append_left]
      exact ⟨hdisj m r .MAIN .RESTRICTED (by decide),
        hdisj u r .UNIVERSE .RESTRICTED (by decide)⟩
    · rw [List.disjoint_append_left, List.disjoint_append_left]
      exact ⟨⟨hdisj m mv .MAIN .MULTIVERSE (by decide),
        hdisj u mv .UNIVERSE .MULTIVERSE (by decide)⟩,
        hdisj r mv .RESTRICTED .MULTIVERSE (by decide)⟩

/-! ## The Changelog Entry Extractor
(`extractChangelogEntry`, `src/services/api.ts:178-242`) -/

/-- `fullText.split('\n')`. -/
def splitNl (cs : List Char) : List (List Char) := splitCh '\n' cs

/-- The segment after the last `:` — `version.split(':').pop()`. -/
def afterLastColon (l : List Char) : List Char :=
  (l.reverse.takeWhile (fun c => c != ':')).reverse

/-- Epoch stripping for loose comparison:
`v.includes(':') ? v.split(':').pop() : v`. -/
def cleanVerL (v : List Char) : List Char :=
  if listContains v [':'] then afterLastColon v else v

/-- The header-line pattern `/^(\S+)\s+\((.+?)\)/` applied to one line:
a non-empty run of non-whitespace at column 0, a non-empty run of
whitespace, `(`, then the shortest non-empty stretch of `.`-matchable
characters up to a `)` (the lazy group, returned as the version).  The
characters consumed by `.+?` may not be line terminators. -/
def headerVersion (line : List Char) : Option (List Char) :=
  if (line.takeWhile (fun c => !jsWs c)).isEmpty then none
  else if (line.dropWhile (fun c => !jsWs c)).isEmpty then none
  else
    match (line.dropWhile (fun c => !jsWs c)).dropWhile jsWs with
    | '(' :: c :: t =>
      if c ≠ '\n' ∧ c ≠ '\r' ∧ ')' ∈ t ∧ '\n' ∉ t.takeWhile (fun x => x != ')')
          ∧ '\r' ∉ t.takeWhile (fun x => x != ')') then
        some (c :: t.takeWhile (fun x => x != ')'))
      else none
    | _ => none

def isHeader (line : List Char) : Bool := (headerVersion line).isSome

/-- The per-line test of the main scan: the line is a header and its
version equals the target exactly, or their epoch-stripped forms agree. -/
def matchesTarget (tv : List Char) (line : List Char) : Bool :=
  match headerVersion line with
  | some w => w == tv || cleanVerL w == cleanVerL tv
  | none => false

/-- Index of the first element from position `i` on satisfying `p`
(the scanning loops of the source). -/
def firstIdxAux (p : List Char → Bool) : List (List Char) → ℕ → Option ℕ
  | [], _ => none
  | l :: rest, i => if p l then some i else firstIdxAux p rest (i + 1)

/-- The end of the block starting at `s`: the first header line strictly
after `s`, or the number of lines when none follows (both the main scan's
`endLine` and the fallback scan's `secondHeaderIndex` logic). -/
def endIdx (lines : List (List Char)) (s : ℕ) : ℕ :=
  match firstIdxAux isHeader (lines.drop (s + 1)) (s + 1) with
  | some e => e
  | none => lines.length

/-- `lines.slice(s, e).join('\n').trim()`. -/
def joinTrim (ls : List (List Char)) : String :=
  ⟨jsTrim (List.intercalate ['\n'] ls)⟩

/-- `extractChangelogEntry` (`src/services/api.ts:178`): find the first
line whose header version matches the target (exactly or epoch-stripped)
and return the trimmed span of lines up to the next header; when no line
matches, fall back to the span of the first header-delimited block; when
the text has no header line at all, return it unchanged. -/
def extractChangelogEntry (fullText targetVersion : String) : String :=
  match firstIdxAux (matchesTarget targetVersion.data) (splitNl fullText.data) 0 with
  | some s =>
    joinTrim (((splitNl fullText.data).drop s).take
      (endIdx (splitNl fullText.data) s - s))
  | none =>
    match firstIdxAux isHeader (splitNl fullText.data) 0 with
    | some f =>
      joinTrim (((splitNl fullText.data).drop f).take
        (endIdx (splitNl fullText.data) f - f))
    | none => fullText

/-- `isValidChangelog` (`src/services/api.ts:244-248`). -/
def isValidChangelog (text : String) : Bool :=
  !(("<!doctype".data).isPrefixOf (jsToLower (jsTrim text.data))) &&
  !(("<html".data).isPrefixOf (jsToLower (jsTrim text.data))) &&
  decide ((jsToLower (jsTrim text.data)).length > 50)

example :
    extractChangelogEntry
      "pkg (2.0-1) unstable; urgency=medium\n\n  * New release\n\npkg (1.0-1) stable; urgency=low\n\n  * Old release\n"
      "2.0-1"
    = "pkg (2.0-1) unstable; urgency=medium\n\n  * New release" := by decide

example :
    extractChangelogEntry
      "pkg (2.0-1) unstable; urgency=medium\n\n  * New release\n\npkg (1.0-1) stable; urgency=low\n\n  * Old release\n"
      "1.0-1"
    = "pkg (1.0-1) stable; urgency=low\n\n  * Old release" := by decide

example :
    extractChangelogEntry
      "pkg (1:2.0-1) unstable; urgency=medium\n\n  * Epoched version\n"
      "2.0-1"
    = "pkg (1:2.0-1) unstable; urgency=medium\n\n  * Epoched version" := by decide

example :
    extractChangelogEntry
      "pkg (2.0-1) unstable; urgency=medium\n\n  * New release\n\npkg (1.0-1) stable; urgency=low\n\n  * Old release\n"
      "9.9-9"
    = "pkg (2.0-1) unstable; urgency=medium\n\n  * New release" := by decide

example :
    extractChangelogEntry "This is just plain text without version headers" "1.0"
    = "This is just plain text without version headers" := by decide

example : isValidChangelog "<!DOCTYPE html><html><head><title>404</title></head></html>" = false := by
  decide
example : isValidChangelog "   <html><body>Not Found</body></html>   " = false := by decide
example : isValidChangelog "This is too short" = false := by decide
example :
    isValidChangelog
      "pkg (1.0-1) stable; urgency=low -- Maintainer <m@example.com>  Mon, 01 Jan 2024"
    = true := by decide

/-! ## Scanning lemmas for the extractor -/

theorem firstIdxAux_nil (p : List Char → Bool) (i : ℕ) : firstIdxAux p [] i = none := rfl

theorem firstIdxAux_cons_true (p : List Char → Bool) (l : List Char)
    (rest : List (List Char)) (i : ℕ) (h : p l = true) :
    firstIdxAux p (l :: rest) i = some i := by
  simp [firstIdxAux, h]

theorem firstIdxAux_none (p : List Char → Bool) (L : List (List Char)) (i : ℕ)
    (h : ∀ l ∈ L, p l = false) : firstIdxAux p L i = none := by
  induction L generalizing i with
  | nil => rfl
  | cons a t ih =>
    simp only [firstIdxAux]
    rw [if_neg (by rw [h a (List.mem_cons_self a t)]; exact Bool.false_ne_true)]
    exact ih (i + 1) (fun l hl => h l (List.mem_cons_of_mem a hl))

theorem firstIdxAux_append (p : List Char → Bool) (A B : List (List Char)) (i : ℕ)
    (hA : ∀ l ∈ A, p l = false) :
    firstIdxAux p (A ++ B) i = firstIdxAux p B (i + A.length) := by
  induction A generalizing i with
  | nil => simp
  | cons a t ih =>
    rw [List.cons_append]
    simp only [firstIdxAux]
    rw [if_neg (by rw [hA a (List.mem_cons_self a t)]; exact Bool.false_ne_true)]
    rw [ih (i + 1) (fun l hl => hA l (List.mem_cons_of_mem a hl))]
    congr 1
    simp
    omega

theorem matchesTarget_false_of_not_header (tv l : List Char) (h : isHeader l = false) :
    matchesTarget tv l = false := by
  unfold matchesTarget
  unfold isHeader at h
  rcases hh : headerVersion l with _ | w
  · rfl
  · rw [hh] at h
    exact absurd h (by simp)

/-- Core span computation shared by the matching path (C3, C6): when the
split lines decompose as non-matching prefix `A`, matching header line
`hl`, non-header block body `body`, and a remainder that is empty or
starts with a header, the extractor returns the trimmed join of
`hl :: body`. -/
theorem extract_block (fullText v : String) (A body rest : List (List Char))
    (hl : List Char)
    (hsplit : splitNl fullText.data = A ++ hl :: (body ++ rest))
    (hA : ∀ l ∈ A, matchesTarget v.data l = false)
    (hmatch : matchesTarget v.data hl = true)
    (hbody : ∀ l ∈ body, isHeader l = false)
    (hrest : rest = [] ∨ ∃ r0 rs, rest = r0 :: rs ∧ isHeader r0 = true) :
    extractChangelogEntry fullText v = joinTrim (hl :: body) := by
  have hstart : firstIdxAux (matchesTarget v.data) (splitNl fullText.data) 0
      = some A.length := by
    rw [hsplit, firstIdxAux_append _ _ _ _ hA, zero_add,
      firstIdxAux_cons_true _ _ _ _ hmatch]
  have hdrop0 : (splitNl fullText.data).drop A.length = hl :: (body ++ rest) := by
    rw [hsplit]
    exact List.drop_left A _
  have hdrop1 : (splitNl fullText.data).drop (A.length + 1) = body ++ rest := by
    rw [hsplit, show A ++ hl :: (body ++ rest) = (A ++ [hl]) ++ (body ++ rest) by simp,
      show A.length + 1 = (A ++ [hl]).length by simp]
    exact List.drop_left _ _
  have hlen : (splitNl fullText.data).length = A.length + 1 + body.length + rest.length := by
    rw [hsplit]
    simp
    omega
  have hend : endIdx (splitNl fullText.data) A.length = A.length + 1 + body.length := by
    unfold endIdx
    rw [hdrop1, firstIdxAux_append _ body rest _ hbody]
    rcases hrest with rfl | ⟨r0, rs, rfl, hr0⟩
    · rw [firstIdxAux_nil]
      show (splitNl fullText.data).length = A.length + 1 + body.length
      rw [hlen]
      simp
    · rw [firstIdxAux_cons_true _ _ _ _ hr0]
  unfold extractChangelogEntry
  split
  · next s hs =>
    rw [hstart] at hs
    injection hs with hs'
    subst hs'
    rw [hend, hdrop0, show A.length + 1 + body.length - A.length = body.length + 1 by omega]
    rw [List.take_succ_cons, List.take_left]
  · next hno =>
    rw [hstart] at hno
    exact absurd hno (by simp)

theorem not_mem_of_listContains_single_false {l : List Char} {c : Char}
    (h : listContains l [c] = false) : c ∉ l := by
  intro hm
  rw [(listContains_singleton l c).mpr hm] at h
  exact absurd h (by simp)

theorem afterLastColon_spec (p d : List Char) (hd : ∀ c ∈ d, c ≠ ':') :
    afterLastColon (p ++ ':' :: d) = d := by
  unfold afterLastColon
  rw [show p ++ ':' :: d = (p ++ [':']) ++ d by simp, List.reverse_append]
  rw [takeWhile_append_all _ _ (by
    intro c hc
    simp only [bne_iff_ne, ne_eq, decide_eq_true_eq]
    exact hd c (List.mem_reverse.mp hc))]
  rw [show (p ++ [':']).reverse = ':' :: p.reverse by simp]
  simp [List.takeWhile_cons]

theorem cleanVerL_no_colon (v : List Char) (h : listContains v [':'] = false) :
    cleanVerL v = v := by
  unfold cleanVerL
  rw [if_neg (by rw [h]; exact Bool.false_ne_true)]

theorem cleanVerL_epoch (e t : List Char) (ht : ':' ∉ t) :
    cleanVerL (e ++ ':' :: t) = t := by
  unfold cleanVerL
  rw [if_pos ((listContains_singleton _ _).mpr
    (List.mem_append_right e (List.mem_cons_self ':' t)))]
  exact afterLastColon_spec e t (fun c hc hceq => ht (hceq ▸ hc))

/-- **C3.**  For a changelog whose lines decompose into a prefix `A` of
lines none of which match the target `v`, block `k`'s header line `hl`
whose version `w` matches `v` exactly or epoch-insensitively, block `k`'s
body (no header lines), and a remainder that either is empty (block `k` is
last) or starts with block `k+1`'s header, `extractChangelogEntry` returns
exactly block `k`: the trimmed join of the lines from `hl` (inclusive) to
the next header (exclusive) or to the end of the text. -/
theorem C3_returns_matching_block (fullText v : String) (A body rest : List (List Char))
    (hl w : List Char)
    (hsplit : splitNl fullText.data = A ++ hl :: (body ++ rest))
    (hA : ∀ l ∈ A, matchesTarget v.data l = false)
    (hhv : headerVersion hl = some w)
    (hver : w = v.data ∨ cleanVerL w = cleanVerL v.data)
    (hbody : ∀ l ∈ body, isHeader l = false)
    (hrest : rest = [] ∨ ∃ r0 rs, rest = r0 :: rs ∧ isHeader r0 = true) :
    extractChangelogEntry fullText v = joinTrim (hl :: body) := by
  apply extract_block fullText v A body rest hl hsplit hA ?_ hbody hrest
  unfold matchesTarget
  rw [hhv]
  rcases hver with rfl | hcl
  · simp
  · simp [hcl]

/-- Witness for C3: the middle block of a three-block changelog is
returned exactly, headers inclusive, next header exclusive. -/
theorem C3_returns_matching_block_witness :
    extractChangelogEntry
        "pkg (2.0-1) unstable; urgency=medium\n\n  * new\npkg (1.5-1) unstable; urgency=low\n\n  * mid\npkg (1.0-1) old; urgency=low\n\n  * old"
        "1.5-1"
      = joinTrim ["pkg (1.5-1) unstable; urgency=low".data, "".data, "  * mid".data] ∧
    extractChangelogEntry
        "pkg (2.0-1) unstable; urgency=medium\n\n  * new\npkg (1.5-1) unstable; urgency=low\n\n  * mid\npkg (1.0-1) old; urgency=low\n\n  * old"
        "1.5-1"
      = "pkg (1.5-1) unstable; urgency=low\n\n  * mid" :=
  ⟨C3_returns_matching_block _ "1.5-1"
      ["pkg (2.0-1) unstable; urgency=medium".data, "".data, "  * new".data]
      ["".data, "  * mid".data]
      ["pkg (1.0-1) old; urgency=low".data, "".data, "  * old".data]
      "pkg (1.5-1) unstable; urgency=low".data "1.5-1".data
      (by decide) (by decide) (by decide) (Or.inl rfl) (by decide)
      (Or.inr ⟨"pkg (1.0-1) old; urgency=low".data,
        ["".data, "  * old".data], rfl, by decide⟩),
   by decide⟩

/-- **C6.**  Version matching is epoch-insensitive: a target without an
epoch selects a block whose header version carries an epoch, and a target
with an epoch selects a block whose header version lacks one, because
only the substring after the last colon is compared when exact equality
fails. -/
theorem C6_epoch_insensitive_match (fullText v : String) (A body rest : List (List Char))
    (hl w : List Char)
    (hsplit : splitNl fullText.data = A ++ hl :: (body ++ rest))
    (hA : ∀ l ∈ A, matchesTarget v.data l = false)
    (hhv : headerVersion hl = some w)
    (hep : (listContains v.data [':'] = false ∧ ∃ e, w = e ++ ':' :: v.data) ∨
           (listContains w [':'] = false ∧ ∃ e, v.data = e ++ ':' :: w))
    (hbody : ∀ l ∈ body, isHeader l = false)
    (hrest : rest = [] ∨ ∃ r0 rs, rest = r0 :: rs ∧ isHeader r0 = true) :
    extractChangelogEntry fullText v = joinTrim (hl :: body) := by
  apply extract_block fullText v A body rest hl hsplit hA ?_ hbody hrest
  unfold matchesTarget
  rw [hhv]
  have hclean : cleanVerL w = cleanVerL v.data := by
    rcases hep with ⟨hv, e, rfl⟩ | ⟨hw, e, hveq⟩
    · rw [cleanVerL_epoch e v.data (not_mem_of_listContains_single_false hv),
        cleanVerL_no_colon v.data hv]
    · rw [hveq, cleanVerL_epoch e w (not_mem_of_listContains_single_false hw),
        cleanVerL_no_colon w hw]
  simp [hclean]

/-- Witness for C6, both directions: plain target `2.0-1` selects the
block headed `(1:2.0-1)`, and epoched target `1:3.0-1` selects the block
headed `(3.0-1)`. -/
theorem C6_epoch_insensitive_match_witness :
    extractChangelogEntry "pkg (1:2.0-1) unstable; urgency=medium\n\n  * epoched entry\n" "2.0-1"
      = joinTrim ["pkg (1:2.0-1) unstable; urgency=medium".data, "".data,
          "  * epoched entry".data, "".data] ∧
    extractChangelogEntry "pkg (1:2.0-1) unstable; urgency=medium\n\n  * epoched entry\n" "2.0-1"
      = "pkg (1:2.0-1) unstable; urgency=medium\n\n  * epoched entry" ∧
    extractChangelogEntry "pkg (3.0-1) unstable; urgency=low\n\n  * plain entry\n" "1:3.0-1"
      = "pkg (3.0-1) unstable; urgency=low\n\n  * plain entry" :=
  ⟨C6_epoch_insensitive_match _ "2.0-1" []
      ["".data, "  * epoched entry".data, "".data] []
      "pkg (1:2.0-1) unstable; urgency=medium".data "1:2.0-1".data
      (by decide) (by decide) (by decide)
      (Or.inl ⟨by decide, ⟨"1".data, by decide⟩⟩)
      (by decide) (Or.inl rfl),
   by decide, by decide⟩

/-- **C7.**  Fallback law: when the text contains at least one header line
and the target matches no line at all (neither exactly nor
epoch-insensitively), the extractor returns the same string as extraction
with the first block's own version. -/
theorem C7_fallback_equals_first_block (fullText t : String) (A rest : List (List Char))
    (hl w : List Char)
    (hsplit : splitNl fullText.data = A ++ hl :: rest)
    (hA : ∀ l ∈ A, isHeader l = false)
    (hw : headerVersion hl = some w)
    (hnm : ∀ l ∈ splitNl fullText.data, matchesTarget t.data l = false) :
    extractChangelogEntry fullText t = extractChangelogEntry fullText ⟨w⟩ := by
  have hfirst : firstIdxAux isHeader (splitNl fullText.data) 0 = some A.length := by
    rw [hsplit, firstIdxAux_append _ _ _ _ hA, zero_add,
      firstIdxAux_cons_true _ _ _ _ (by unfold isHeader; rw [hw]; rfl)]
  have hstartw : firstIdxAux (matchesTarget w) (splitNl fullText.data) 0
      = some A.length := by
    rw [hsplit,
      firstIdxAux_append _ _ _ _ (fun l hl' => matchesTarget_false_of_not_header w l (hA l hl')),
      zero_add, firstIdxAux_cons_true _ _ _ _ (by unfold matchesTarget; rw [hw]; simp)]
  have hnone : firstIdxAux (matchesTarget t.data) (splitNl fullText.data) 0 = none :=
    firstIdxAux_none _ _ _ hnm
  unfold extractChangelogEntry
  split
  · next s hs =>
    rw [hnone] at hs
    exact absurd hs (by simp)
  · next =>
    split
    · next f hf =>
      rw [hfirst] at hf
      injection hf with hf'
      subst hf'
      split
      · next s hs =>
        rw [show (⟨w⟩ : String).data = w from rfl, hstartw] at hs
        injection hs with hs'
        subst hs'
        rfl
      · next hno =>
        rw [show (⟨w⟩ : String).data = w from rfl, hstartw] at hno
    · next hno =>
      rw [hfirst] at hno
      exact absurd hno (by simp)

/-- Witness for C7: a target absent from the text falls back to the first
block, which is what extraction with the first block's version `3.3`
returns as well. -/
theorem C7_fallback_equals_first_block_witness :
    extractChangelogEntry "preamble text\npkg (3.3) unstable; urgency=low\n  * a\npkg (2.2) old; urgency=low\n  * b" "nonexistent-version"
      = extractChangelogEntry "preamble text\npkg (3.3) unstable; urgency=low\n  * a\npkg (2.2) old; urgency=low\n  * b" ⟨"3.3".data⟩ ∧
    extractChangelogEntry "preamble text\npkg (3.3) unstable; urgency=low\n  * a\npkg (2.2) old; urgency=low\n  * b" "nonexistent-version"
      = "pkg (3.3) unstable; urgency=low\n  * a" :=
  ⟨C7_fallback_equals_first_block _ "nonexistent-version"
      ["preamble text".data]
      ["  * a".data, "pkg (2.2) old; urgency=low".data, "  * b".data]
      "pkg (3.3) unstable; urgency=low".data "3.3".data
      (by decide) (by decide) (by decide) (by decide),
   by decide⟩

/-- **C9.**  The validity heuristic returns false exactly for texts whose
trimmed, lower-cased form starts with a doctype declaration or an opening
html tag, and for texts whose trimmed length is at or below 50
characters; every other text is accepted. -/
theorem C9_validity_heuristic (text : String) :
    isValidChangelog text = false ↔
      (("<!doctype".data).isPrefixOf (jsToLower (jsTrim text.data)) = true ∨
       ("<html".data).isPrefixOf (jsToLower (jsTrim text.data)) = true ∨
       (jsTrim text.data).length ≤ 50) := by
  have hlen : (jsToLower (jsTrim text.data)).length = (jsTrim text.data).length :=
    List.length_map _ _
  unfold isValidChangelog
  rw [hlen]
  simp only [Bool.and_eq_false_iff, Bool.not_eq_false', decide_eq_false_iff_not, not_lt]
  tauto
